import Mathlib

/-!
Verification of the two image-conversion scripts in this repository:
`public/favicon/favicon_to_png.py` (SVG content-bounds extraction and
square-crop rasterization) and
`src/assets/projects/retargeting/compress_gif.py` (animated-GIF resizing).

The Python code is shallowly embedded: numeric attribute values become
rationals (Python floats are used only for exact decimal arithmetic and
comparisons in these scripts), lists become `List`, exceptions become
`Except`, and the two external libraries (cairosvg, PIL) are embedded by
their documented contracts where the scripts call them.
-/

/- ## SVG model (favicon_to_png.py)

An SVG element after XML parsing.  Attribute lookups with a default of 0
(`elem.get("cx", 0)` etc.) are resolved at this boundary, so each shape
constructor carries the resolved numeric attributes.  A `path` element
carries the coordinate points harvested from its `d` attribute by
`parse_path_data` (the regex that extracts `number[,\s]+number` pairs);
the claims under verification never depend on the harvesting itself, only
on the resulting point list.  `other` stands for any non-shape element. -/

inductive Elem where
  | path (points : List (ℚ × ℚ))
  | rect (x y width height : ℚ)
  | circle (cx cy r : ℚ)
  | ellipse (cx cy rx ry : ℚ)
  | line (x1 y1 x2 y2 : ℚ)
  | poly (points : List (ℚ × ℚ))
  | other
  deriving DecidableEq

/-- A parsed SVG document: its declared `viewBox` attribute
(min-x, min-y, width, height), if any, and its elements in document
order (as visited by `root.iter()`). -/
structure SvgDoc where
  viewBox : Option (ℚ × ℚ × ℚ × ℚ)
  elements : List Elem
  deriving DecidableEq

/-- Points contributed by an element in the first pass of
`get_svg_content_bounds`, which visits only `path` elements and collects
the coordinates harvested from their `d` attribute. -/
def Elem.pathPoints : Elem → List (ℚ × ℚ)
  | .path pts => pts
  | _ => []

/-- Points contributed by an element in the second pass of
`get_svg_content_bounds`, which visits the basic shapes
(rect, circle, ellipse, line, polyline, polygon). -/
def Elem.shapePoints : Elem → List (ℚ × ℚ)
  | .rect x y width height => [(x, y), (x + width, y + height)]
  | .circle cx cy r => [(cx - r, cy - r), (cx + r, cy + r)]
  | .ellipse cx cy rx ry => [(cx - rx, cy - ry), (cx + rx, cy + ry)]
  | .line x1 y1 x2 y2 => [(x1, y1), (x2, y2)]
  | .poly pts => pts
  | _ => []

/-- The `all_points` list built by `get_svg_content_bounds`: all path
points (first pass) followed by all basic-shape points (second pass),
each pass in document order. -/
def allPoints (doc : SvgDoc) : List (ℚ × ℚ) :=
  doc.elements.flatMap Elem.pathPoints ++ doc.elements.flatMap Elem.shapePoints

/-- `get_svg_content_bounds`: the bounding box (min_x, min_y, max_x, max_y)
of all collected points; when no points were collected it falls back to
`(0, 0, width, height)` of the declared viewBox, or `(0, 0, 100, 100)`
when there is no viewBox attribute. -/
def get_svg_content_bounds (doc : SvgDoc) : ℚ × ℚ × ℚ × ℚ :=
  match allPoints doc with
  | [] =>
    match doc.viewBox with
    | some (_, _, width, height) => (0, 0, width, height)
    | none => (0, 0, 100, 100)
  | p :: ps =>
    let xs := ps.map Prod.fst
    let ys := ps.map Prod.snd
    (xs.foldl min p.1, ys.foldl min p.2, xs.foldl max p.1, ys.foldl max p.2)

/-- Observable result of `svg_to_png`: the rewritten `viewBox`
(min-x, min-y, width, height) and `width`/`height` attributes of the
modified SVG, and the pixel dimensions of the PNG written to disk.
`cairosvg.svg2png` is embedded by its contract: the produced raster has
exactly the requested `output_width` and `output_height`. -/
structure PngResult where
  viewBox : ℚ × ℚ × ℚ × ℚ
  widthAttr : ℕ
  heightAttr : ℕ
  pngWidth : ℕ
  pngHeight : ℕ
  deriving DecidableEq

/-- `svg_to_png`: computes the content bounds, derives the centered square
crop window, rewrites the document's viewBox/width/height, and rasterizes
at exactly width x height pixels. -/
def svg_to_png (doc : SvgDoc) (width height : ℕ) : PngResult :=
  let b := get_svg_content_bounds doc
  let min_x := b.1
  let min_y := b.2.1
  let max_x := b.2.2.1
  let max_y := b.2.2.2
  let content_width := max_x - min_x
  let content_height := max_y - min_y
  let square_size := max content_width content_height
  let center_x := min_x + content_width / 2
  let center_y := min_y + content_height / 2
  let new_min_x := center_x - square_size / 2
  let new_min_y := center_y - square_size / 2
  { viewBox := (new_min_x, new_min_y, square_size, square_size)
    widthAttr := width
    heightAttr := height
    pngWidth := width
    pngHeight := height }

/-- The `target_sizes` list of `main` in favicon_to_png.py. -/
def target_sizes : List ℕ := [32, 128, 256]

/-- Observable outcome of `main` in favicon_to_png.py: the sizes whose
PNG files were generated, and whether the top-level `except` handler
printed an error diagnostic.  `main` always returns normally (the whole
size loop sits inside one `try` block). -/
structure MainResult where
  generated : List ℕ
  errorPrinted : Bool
  deriving DecidableEq

/-- The size loop of `main` under a failure oracle: `fails s = true`
models `svg_to_png` raising an exception while processing size `s`.
The loop is inside a single `try`; the first failure jumps to the
`except` handler, which prints a diagnostic, after which `main` returns.
Sizes generated before the failure remain on disk. -/
def runSizes (fails : ℕ → Bool) : List ℕ → MainResult
  | [] => { generated := [], errorPrinted := false }
  | s :: rest =>
    if fails s then { generated := [], errorPrinted := true }
    else
      let r := runSizes fails rest
      { generated := s :: r.generated, errorPrinted := r.errorPrinted }

/-- `main` of favicon_to_png.py, restricted to its size loop, under a
failure oracle for the per-size conversion. -/
def main_run (fails : ℕ → Bool) : MainResult :=
  runSizes fails target_sizes

/- ## GIF model (compress_gif.py) -/

/-- Python's `round` on an exact value: round half to even. -/
def pyRound (q : ℚ) : ℤ :=
  if Int.fract q < 1 / 2 then ⌊q⌋
  else if 1 / 2 < Int.fract q then ⌊q⌋ + 1
  else if ⌊q⌋ % 2 = 0 then ⌊q⌋ else ⌊q⌋ + 1

/-- `PIL.ImageOps.contain`, embedded by its implementation: resize the
`w x h` image to the maximum size inside the `W x H` box that keeps the
aspect ratio.  When the ratios differ, the binding dimension is set to
the box and the other is rounded; when they agree the image is resized
to exactly the box (upscaling when the image is smaller). -/
def contain (w h W H : ℕ) : ℕ × ℕ :=
  let im_ratio : ℚ := (w : ℚ) / (h : ℚ)
  let dest_ratio : ℚ := (W : ℚ) / (H : ℚ)
  if im_ratio ≠ dest_ratio then
    if dest_ratio < im_ratio then
      let new_height : ℤ := pyRound ((h : ℚ) / (w : ℚ) * (W : ℚ))
      if new_height ≠ (H : ℤ) then (W, new_height.toNat) else (W, H)
    else
      let new_width : ℤ := pyRound ((w : ℚ) / (h : ℚ) * (H : ℚ))
      if new_width ≠ (W : ℤ) then (new_width.toNat, H) else (W, H)
  else (W, H)

/-- One decoded GIF frame: its pixel dimensions and its own optional
`duration` entry in `frame.info`. -/
structure Frame where
  width : ℕ
  height : ℕ
  duration : Option ℕ
  deriving DecidableEq

/-- The `info` dictionary of the opened GIF, restricted to the keys
compress_gif.py reads: `duration`, `loop`, `disposal`, `transparency`. -/
structure GifInfo where
  duration : Option ℕ
  loop : Option ℕ
  disposal : Option ℕ
  transparency : Option ℕ
  deriving DecidableEq

/-- A decodable input GIF: its info dictionary and its frame sequence. -/
structure InputGif where
  info : GifInfo
  frames : List Frame
  deriving DecidableEq

/-- The two failure kinds `resize_gif` raises: `FileNotFoundError` for a
missing input path and `ValueError` for an empty frame sequence. -/
inductive GifError where
  | notFound
  | corrupt
  deriving DecidableEq

/-- The animated GIF written by `resize_gif`: the saved frame sizes
(first frame plus `append_images`), and the `loop`, per-frame `duration`
list, `disposal` and optional `transparency` passed to `save`. -/
structure OutputGif where
  frames : List (ℕ × ℕ)
  loop : ℕ
  durations : List ℕ
  disposal : ℕ
  transparency : Option ℕ
  deriving DecidableEq

/-- `resize_gif`: `none` as input models a nonexistent input path (the
`Path.exists` check fails).  Frame conversion to RGBA and the final
palette quantization keep pixel dimensions, so each output frame's size
is `contain` of its source frame's size.  An `Except.error` result means
the function raised before `frames[0].save(...)`, so no output file was
written; `Except.ok` carries what was written. -/
def resize_gif (input : Option InputGif) (max_width max_height : ℕ) :
    Except GifError OutputGif :=
  match input with
  | none => .error .notFound
  | some base_gif =>
    let base_duration := base_gif.info.duration.getD 100
    let base_loop := base_gif.info.loop.getD 0
    let base_disposal := base_gif.info.disposal.getD 2
    let transparency := base_gif.info.transparency
    let durations := base_gif.frames.map (fun f => f.duration.getD base_duration)
    let frames := base_gif.frames.map
      (fun f => contain f.width f.height max_width max_height)
    match frames with
    | [] => .error .corrupt
    | f0 :: rest =>
      .ok { frames := f0 :: rest
            loop := base_loop
            durations := durations
            disposal := base_disposal
            transparency := transparency }

/- ## Helper lemmas: foldl over min and max -/

/-- A min-fold is at most its initial value. -/
theorem foldl_min_le_init (xs : List ℚ) (a : ℚ) : xs.foldl min a ≤ a := by
  induction xs generalizing a with
  | nil => exact le_refl a
  | cons x xs ih => exact le_trans (ih (min a x)) (min_le_left a x)

/-- A min-fold is at most every member of the list. -/
theorem foldl_min_le_mem {xs : List ℚ} {x : ℚ} (hx : x ∈ xs) (a : ℚ) :
    xs.foldl min a ≤ x := by
  induction xs generalizing a with
  | nil => cases hx
  | cons y ys ih =>
    rcases List.mem_cons.mp hx with h | h
    · subst h
      exact le_trans (foldl_min_le_init ys (min a x)) (min_le_right a x)
    · exact ih h (min a y)

/-- A lower bound of the initial value and all members bounds a min-fold. -/
theorem le_foldl_min {xs : List ℚ} {a c : ℚ} (ha : c ≤ a)
    (hxs : ∀ x ∈ xs, c ≤ x) : c ≤ xs.foldl min a := by
  induction xs generalizing a with
  | nil => exact ha
  | cons y ys ih =>
    exact ih (le_min ha (hxs y (List.mem_cons_self y ys)))
      (fun x hx => hxs x (List.mem_cons_of_mem y hx))

/-- A max-fold is at least its initial value. -/
theorem init_le_foldl_max (xs : List ℚ) (a : ℚ) : a ≤ xs.foldl max a := by
  induction xs generalizing a with
  | nil => exact le_refl a
  | cons x xs ih => exact le_trans (le_max_left a x) (ih (max a x))

/-- A max-fold is at least every member of the list. -/
theorem mem_le_foldl_max {xs : List ℚ} {x : ℚ} (hx : x ∈ xs) (a : ℚ) :
    x ≤ xs.foldl max a := by
  induction xs generalizing a with
  | nil => cases hx
  | cons y ys ih =>
    rcases List.mem_cons.mp hx with h | h
    · subst h
      exact le_trans (le_max_right a x) (init_le_foldl_max ys (max a x))
    · exact ih h (max a y)

/-- An upper bound of the initial value and all members bounds a max-fold. -/
theorem foldl_max_le {xs : List ℚ} {a c : ℚ} (ha : a ≤ c)
    (hxs : ∀ x ∈ xs, x ≤ c) : xs.foldl max a ≤ c := by
  induction xs generalizing a with
  | nil => exact ha
  | cons y ys ih =>
    exact ih (max_le ha (hxs y (List.mem_cons_self y ys)))
      (fun x hx => hxs x (List.mem_cons_of_mem y hx))

/- ## Helper lemmas: pyRound and contain -/

/-- Rounding moves a value by at most one half. -/
theorem pyRound_abs (q : ℚ) : |(pyRound q : ℚ) - q| ≤ 1 / 2 := by
  have hfl : (⌊q⌋ : ℚ) ≤ q := Int.floor_le q
  have hfu : q < (⌊q⌋ : ℚ) + 1 := Int.lt_floor_add_one q
  have hfr : Int.fract q = q - (⌊q⌋ : ℚ) := rfl
  unfold pyRound
  split_ifs with h1 h2 h3
  · rw [hfr] at h1
    rw [abs_sub_le_iff]
    constructor <;> linarith
  · rw [hfr] at h1 h2
    rw [abs_sub_le_iff]
    push_cast
    constructor <;> linarith
  · rw [hfr] at h1 h2
    rw [abs_sub_le_iff]
    constructor <;> linarith
  · rw [hfr] at h1 h2
    rw [abs_sub_le_iff]
    push_cast
    constructor <;> linarith

/-- Rounding a value strictly below an integer stays at or below it. -/
theorem pyRound_le {q : ℚ} {n : ℤ} (h : q < (n : ℚ)) : pyRound q ≤ n := by
  have habs := (abs_sub_le_iff.mp (pyRound_abs q)).1
  have hlt : (pyRound q : ℚ) < (n : ℚ) + 1 := by linarith
  have : pyRound q < n + 1 := by exact_mod_cast hlt
  omega

/-- Rounding a nonnegative value is nonnegative. -/
theorem pyRound_nonneg {q : ℚ} (h : 0 ≤ q) : 0 ≤ pyRound q := by
  have hfl : 0 ≤ ⌊q⌋ := Int.floor_nonneg.mpr h
  unfold pyRound
  split_ifs <;> omega

/-- Main property of the embedded `ImageOps.contain`: the result fits in
the requested box and its aspect ratio matches the source ratio up to
the rounding of one dimension. -/
theorem contain_spec (w h W H : ℕ) (hw : 0 < w) (hh : 0 < h)
    (hW : 0 < W) (hH : 0 < H) :
    (contain w h W H).1 ≤ W ∧ (contain w h W H).2 ≤ H ∧
    2 * |((contain w h W H).2 : ℚ) * (w : ℚ) - (h : ℚ) * ((contain w h W H).1 : ℚ)|
      ≤ ((max w h : ℕ) : ℚ) := by
  have hwq : (0 : ℚ) < (w : ℚ) := by exact_mod_cast hw
  have hhq : (0 : ℚ) < (h : ℚ) := by exact_mod_cast hh
  have hWq : (0 : ℚ) < (W : ℚ) := by exact_mod_cast hW
  have hHq : (0 : ℚ) < (H : ℚ) := by exact_mod_cast hH
  have hmaxw : (w : ℚ) ≤ ((max w h : ℕ) : ℚ) := by
    exact_mod_cast Nat.le_max_left w h
  have hmaxh : (h : ℚ) ≤ ((max w h : ℕ) : ℚ) := by
    exact_mod_cast Nat.le_max_right w h
  simp only [contain]
  split_ifs with hne hgt hnh hnw
  · -- landscape-leaning image, rounded height differs from the box height
    set q : ℚ := (h : ℚ) / (w : ℚ) * (W : ℚ) with hq
    have hcross : (W : ℚ) * (h : ℚ) < (w : ℚ) * (H : ℚ) :=
      (div_lt_div_iff₀ hHq hhq).mp hgt
    have hq_pos : 0 ≤ q := by positivity
    have hq_lt : q < (H : ℚ) := by
      rw [hq, div_mul_eq_mul_div, div_lt_iff₀ hwq]
      nlinarith
    have hnn : 0 ≤ pyRound q := pyRound_nonneg hq_pos
    have hle : pyRound q ≤ (H : ℤ) := pyRound_le (by exact_mod_cast hq_lt)
    have hcast : (((pyRound q).toNat : ℕ) : ℚ) = (pyRound q : ℚ) := by
      exact_mod_cast Int.toNat_of_nonneg hnn
    refine ⟨le_refl W, Int.toNat_le.mpr hle, ?_⟩
    have hqw : q * (w : ℚ) = (h : ℚ) * (W : ℚ) := by
      rw [hq]; field_simp
    have habs := pyRound_abs q
    have key : |(pyRound q : ℚ) * (w : ℚ) - (h : ℚ) * (W : ℚ)| ≤ (w : ℚ) / 2 := by
      calc |(pyRound q : ℚ) * (w : ℚ) - (h : ℚ) * (W : ℚ)|
          = |((pyRound q : ℚ) - q) * (w : ℚ)| := by rw [sub_mul, hqw]
        _ = |(pyRound q : ℚ) - q| * (w : ℚ) := by
            rw [abs_mul, abs_of_pos hwq]
        _ ≤ (1 / 2) * (w : ℚ) :=
            mul_le_mul_of_nonneg_right habs (le_of_lt hwq)
        _ = (w : ℚ) / 2 := by ring
    rw [hcast]
    linarith [abs_nonneg ((pyRound q : ℚ) * (w : ℚ) - (h : ℚ) * (W : ℚ))]
  · -- landscape-leaning image, rounded height equals the box height
    set q : ℚ := (h : ℚ) / (w : ℚ) * (W : ℚ) with hq
    have hnh' : pyRound q = (H : ℤ) := not_not.mp hnh
    refine ⟨le_refl W, le_refl H, ?_⟩
    have hqw : q * (w : ℚ) = (h : ℚ) * (W : ℚ) := by
      rw [hq]; field_simp
    have habs := pyRound_abs q
    have key : |(pyRound q : ℚ) * (w : ℚ) - (h : ℚ) * (W : ℚ)| ≤ (w : ℚ) / 2 := by
      calc |(pyRound q : ℚ) * (w : ℚ) - (h : ℚ) * (W : ℚ)|
          = |((pyRound q : ℚ) - q) * (w : ℚ)| := by rw [sub_mul, hqw]
        _ = |(pyRound q : ℚ) - q| * (w : ℚ) := by
            rw [abs_mul, abs_of_pos hwq]
        _ ≤ (1 / 2) * (w : ℚ) :=
            mul_le_mul_of_nonneg_right habs (le_of_lt hwq)
        _ = (w : ℚ) / 2 := by ring
    have hHcast : ((H : ℕ) : ℚ) = (pyRound q : ℚ) := by
      exact_mod_cast congrArg Int.cast hnh'.symm
    rw [hHcast]
    linarith
  · -- portrait-leaning image, rounded width differs from the box width
    have hlt : (w : ℚ) / (h : ℚ) < (W : ℚ) / (H : ℚ) :=
      lt_of_le_of_ne (not_lt.mp hgt) hne
    set q : ℚ := (w : ℚ) / (h : ℚ) * (H : ℚ) with hq
    have hcross : (w : ℚ) * (H : ℚ) < (W : ℚ) * (h : ℚ) :=
      (div_lt_div_iff₀ hhq hHq).mp hlt
    have hq_pos : 0 ≤ q := by positivity
    have hq_lt : q < (W : ℚ) := by
      rw [hq, div_mul_eq_mul_div, div_lt_iff₀ hhq]
      nlinarith
    have hnn : 0 ≤ pyRound q := pyRound_nonneg hq_pos
    have hle : pyRound q ≤ (W : ℤ) := pyRound_le (by exact_mod_cast hq_lt)
    have hcast : (((pyRound q).toNat : ℕ) : ℚ) = (pyRound q : ℚ) := by
      exact_mod_cast Int.toNat_of_nonneg hnn
    refine ⟨Int.toNat_le.mpr hle, le_refl H, ?_⟩
    have hqh : q * (h : ℚ) = (w : ℚ) * (H : ℚ) := by
      rw [hq]; field_simp
    have habs := pyRound_abs q
    have key : |(pyRound q : ℚ) * (h : ℚ) - (w : ℚ) * (H : ℚ)| ≤ (h : ℚ) / 2 := by
      calc |(pyRound q : ℚ) * (h : ℚ) - (w : ℚ) * (H : ℚ)|
          = |((pyRound q : ℚ) - q) * (h : ℚ)| := by rw [sub_mul, hqh]
        _ = |(pyRound q : ℚ) - q| * (h : ℚ) := by
            rw [abs_mul, abs_of_pos hhq]
        _ ≤ (1 / 2) * (h : ℚ) :=
            mul_le_mul_of_nonneg_right habs (le_of_lt hhq)
        _ = (h : ℚ) / 2 := by ring
    rw [hcast]
    have hswap : (H : ℚ) * (w : ℚ) - (h : ℚ) * (pyRound q : ℚ)
        = -((pyRound q : ℚ) * (h : ℚ) - (w : ℚ) * (H : ℚ)) := by ring
    rw [hswap, abs_neg]
    linarith
  · -- portrait-leaning image, rounded width equals the box width
    have hlt : (w : ℚ) / (h : ℚ) < (W : ℚ) / (H : ℚ) :=
      lt_of_le_of_ne (not_lt.mp hgt) hne
    set q : ℚ := (w : ℚ) / (h : ℚ) * (H : ℚ) with hq
    have hnw' : pyRound q = (W : ℤ) := not_not.mp hnw
    refine ⟨le_refl W, le_refl H, ?_⟩
    have hqh : q * (h : ℚ) = (w : ℚ) * (H : ℚ) := by
      rw [hq]; field_simp
    have habs := pyRound_abs q
    have key : |(pyRound q : ℚ) * (h : ℚ) - (w : ℚ) * (H : ℚ)| ≤ (h : ℚ) / 2 := by
      calc |(pyRound q : ℚ) * (h : ℚ) - (w : ℚ) * (H : ℚ)|
          = |((pyRound q : ℚ) - q) * (h : ℚ)| := by rw [sub_mul, hqh]
        _ = |(pyRound q : ℚ) - q| * (h : ℚ) := by
            rw [abs_mul, abs_of_pos hhq]
        _ ≤ (1 / 2) * (h : ℚ) :=
            mul_le_mul_of_nonneg_right habs (le_of_lt hhq)
        _ = (h : ℚ) / 2 := by ring
    have hWcast : ((W : ℕ) : ℚ) = (pyRound q : ℚ) := by
      exact_mod_cast congrArg Int.cast hnw'.symm
    have hswap : (H : ℚ) * (w : ℚ) - (h : ℚ) * (W : ℚ)
        = -(((W : ℕ) : ℚ) * (h : ℚ) - (w : ℚ) * (H : ℚ)) := by ring
    rw [hswap, abs_neg, hWcast]
    linarith
  · -- ratios agree exactly: resized to the full box
    have heq : (w : ℚ) / (h : ℚ) = (W : ℚ) / (H : ℚ) := not_not.mp hne
    have hcross : (w : ℚ) * (H : ℚ) = (W : ℚ) * (h : ℚ) :=
      (div_eq_div_iff hhq.ne' hHq.ne').mp heq
    refine ⟨le_refl W, le_refl H, ?_⟩
    have hzero : (H : ℚ) * (w : ℚ) - (h : ℚ) * (W : ℚ) = 0 := by
      linear_combination hcross
    rw [hzero, abs_zero, mul_zero]
    positivity

/-- Unfolding of a successful `resize_gif` run: how each component of the
written GIF derives from the input. -/
theorem resize_gif_ok_fields {g : InputGif} {maxW maxH : ℕ} {out : OutputGif}
    (hok : resize_gif (some g) maxW maxH = .ok out) :
    out.frames = g.frames.map (fun f => contain f.width f.height maxW maxH) ∧
    out.loop = g.info.loop.getD 0 ∧
    out.durations = g.frames.map (fun f => f.duration.getD (g.info.duration.getD 100)) ∧
    out.disposal = g.info.disposal.getD 2 ∧
    out.transparency = g.info.transparency := by
  simp only [resize_gif] at hok
  cases hmap : g.frames.map (fun f => contain f.width f.height maxW maxH) with
  | nil =>
    rw [hmap] at hok
    simp at hok
  | cons f0 rest =>
    rw [hmap] at hok
    simp only [Except.ok.injEq] at hok
    subst hok
    exact ⟨rfl, rfl, rfl, rfl, rfl⟩

/-- Zipping a list with its own image under a map pairs each element with
its image. -/
theorem zip_self_map {α β : Type} (l : List α) (φ : α → β) :
    l.zip (l.map φ) = l.map (fun x => (x, φ x)) := by
  induction l with
  | nil => rfl
  | cons a as ih => simp [ih]

/-- Mapping a defaulted duration lookup over frames that all lack a
duration yields a constant list. -/
theorem map_getD_of_none (l : List Frame) (d : ℕ)
    (hfd : ∀ f ∈ l, f.duration = none) :
    l.map (fun f => f.duration.getD d) = List.replicate l.length d := by
  induction l with
  | nil => rfl
  | cons f fs ih =>
    simp only [List.map_cons, List.length_cons, List.replicate_succ]
    rw [hfd f (List.mem_cons_self f fs),
      ih (fun x hx => hfd x (List.mem_cons_of_mem f hx))]
    rfl

/- ## Claims about compress_gif.py -/

/-- C2 (counterexample): the original claim says `resize_gif` never
upscales a frame beyond the source frame's dimensions.  A 10x10 frame
resized with max_width = max_height = 360 is written as a 360x360 frame
(`ImageOps.contain` scales the image up to fill the box), and 360 is not
at most 10. -/
theorem C2_counterexample :
    resize_gif (some ⟨⟨none, none, none, none⟩, [⟨10, 10, none⟩]⟩) 360 360 =
      Except.ok ⟨[(360, 360)], 0, [100], 2, none⟩ ∧
    ¬((360 : ℕ) ≤ 10) :=
  ⟨by norm_num [resize_gif, contain], by decide⟩

/-- C2 (amended): for every frame of a successful `resize_gif` run
(positive source dimensions and positive maxima), the output frame fits
in the requested box (width at most max_width, height at most
max_height) and its aspect ratio equals the source ratio within the
tolerance of rounding one dimension to a whole pixel; frames smaller
than the box are however scaled up to fill it. -/
theorem C2_resize_bounds (g : InputGif) (maxW maxH : ℕ)
    (hW : 0 < maxW) (hH : 0 < maxH)
    (hf : ∀ f ∈ g.frames, 0 < f.width ∧ 0 < f.height)
    (out : OutputGif) (hok : resize_gif (some g) maxW maxH = .ok out)
    (fr : Frame) (sz : ℕ × ℕ) (hmem : (fr, sz) ∈ g.frames.zip out.frames) :
    sz.1 ≤ maxW ∧ sz.2 ≤ maxH ∧
    2 * |(sz.2 : ℚ) * (fr.width : ℚ) - (fr.height : ℚ) * (sz.1 : ℚ)|
      ≤ ((max fr.width fr.height : ℕ) : ℚ) := by
  obtain ⟨hframes, -, -, -, -⟩ := resize_gif_ok_fields hok
  rw [hframes, zip_self_map] at hmem
  obtain ⟨x, hx, hpair⟩ := List.mem_map.mp hmem
  have hfr : x = fr := congrArg Prod.fst hpair
  have hsz : contain x.width x.height maxW maxH = sz := congrArg Prod.snd hpair
  subst hfr
  subst hsz
  exact contain_spec x.width x.height maxW maxH
    (hf x hx).1 (hf x hx).2 hW hH

/-- C2 (witness): the amended theorem applied to a one-frame 100x50 GIF
resized into a 64x32 box, which yields a 64x32 frame. -/
theorem C2_resize_bounds_witness :
    (64 : ℕ) ≤ 64 ∧ (32 : ℕ) ≤ 32 ∧
    2 * |((32 : ℕ) : ℚ) * ((100 : ℕ) : ℚ) - ((50 : ℕ) : ℚ) * ((64 : ℕ) : ℚ)|
      ≤ ((max 100 50 : ℕ) : ℚ) :=
  C2_resize_bounds ⟨⟨none, none, none, none⟩, [⟨100, 50, none⟩]⟩ 64 32
    (by decide) (by decide) (by decide)
    ⟨[(64, 32)], 0, [100], 2, none⟩
    (by norm_num [resize_gif, contain])
    ⟨100, 50, none⟩ (64, 32) (by decide)

/-- C8: a successful `resize_gif` run writes exactly as many frames as
the input GIF has. -/
theorem C8_frame_count (g : InputGif) (maxW maxH : ℕ) (out : OutputGif)
    (hok : resize_gif (some g) maxW maxH = .ok out) :
    out.frames.length = g.frames.length := by
  rw [(resize_gif_ok_fields hok).1, List.length_map]

/-- C8 (witness): the theorem applied to a one-frame GIF. -/
theorem C8_frame_count_witness :
    resize_gif (some ⟨⟨none, none, none, none⟩, [⟨10, 10, none⟩]⟩) 360 360 =
      Except.ok ⟨[(360, 360)], 0, [100], 2, none⟩ ∧
    ([(360, 360)] : List (ℕ × ℕ)).length = [(⟨10, 10, none⟩ : Frame)].length :=
  ⟨by norm_num [resize_gif, contain],
   C8_frame_count ⟨⟨none, none, none, none⟩, [⟨10, 10, none⟩]⟩ 360 360
     ⟨[(360, 360)], 0, [100], 2, none⟩ (by norm_num [resize_gif, contain])⟩

/-- C9: `resize_gif` raises the not-found failure when the input path
does not exist, raises the distinct corrupt-input failure when zero
frames are extracted, and in both cases returns an error before any
output is written (an `Except.error` result is raised ahead of the
single `save` call). -/
theorem C9_error_kinds (maxW maxH : ℕ) (g : InputGif) (hempty : g.frames = []) :
    resize_gif none maxW maxH = Except.error GifError.notFound ∧
    resize_gif (some g) maxW maxH = Except.error GifError.corrupt ∧
    GifError.notFound ≠ GifError.corrupt := by
  refine ⟨rfl, ?_, by decide⟩
  simp [resize_gif, hempty]

/-- C9 (witness): the theorem applied to a zero-frame GIF. -/
theorem C9_error_kinds_witness :
    (⟨⟨none, none, none, none⟩, []⟩ : InputGif).frames = [] ∧
    (resize_gif none 360 360 = Except.error GifError.notFound ∧
     resize_gif (some ⟨⟨none, none, none, none⟩, []⟩) 360 360 =
       Except.error GifError.corrupt ∧
     GifError.notFound ≠ GifError.corrupt) :=
  ⟨rfl, C9_error_kinds 360 360 ⟨⟨none, none, none, none⟩, []⟩ rfl⟩

/-- C10: when the source GIF declares no duration, loop or disposal
metadata (neither globally nor per frame), the output is written with
loop count 0, disposal mode 2 and every frame duration 100 ms, and the
transparency attached to the output is exactly the source's declared
transparency (attached only when one is declared). -/
theorem C10_metadata_defaults (g : InputGif) (maxW maxH : ℕ)
    (hd : g.info.duration = none) (hl : g.info.loop = none)
    (hdisp : g.info.disposal = none)
    (hfd : ∀ f ∈ g.frames, f.duration = none)
    (out : OutputGif) (hok : resize_gif (some g) maxW maxH = .ok out) :
    out.loop = 0 ∧ out.disposal = 2 ∧
    out.durations = List.replicate g.frames.length 100 ∧
    out.transparency = g.info.transparency := by
  obtain ⟨-, hloop, hdur, hdisp2, htr⟩ := resize_gif_ok_fields hok
  refine ⟨by rw [hloop, hl]; rfl, by rw [hdisp2, hdisp]; rfl, ?_, htr⟩
  rw [hdur, hd]
  exact map_getD_of_none g.frames _ hfd

/-- C10 (witness): the theorem applied to a one-frame GIF with no
animation metadata and a declared transparency index 5. -/
theorem C10_metadata_defaults_witness :
    (0 : ℕ) = 0 ∧ (2 : ℕ) = 2 ∧
    ([100] : List ℕ) = List.replicate 1 100 ∧
    (some 5 : Option ℕ) = some 5 :=
  C10_metadata_defaults ⟨⟨none, none, none, some 5⟩, [⟨10, 10, none⟩]⟩ 360 360
    rfl rfl rfl (by decide)
    ⟨[(360, 360)], 0, [100], 2, some 5⟩
    (by norm_num [resize_gif, contain])

/- ## Claims about favicon_to_png.py -/

/-- Characterization of the size loop under a failure oracle: the
generated sizes are exactly the prefix before the first failing size,
and the diagnostic is printed exactly when some reached size fails. -/
theorem runSizes_spec (fails : ℕ → Bool) (sizes : List ℕ) :
    (runSizes fails sizes).generated = sizes.takeWhile (fun s => !fails s) ∧
    (runSizes fails sizes).errorPrinted = sizes.any fails := by
  induction sizes with
  | nil => exact ⟨rfl, rfl⟩
  | cons s rest ih =>
    by_cases hs : fails s
    · simp [runSizes, hs, List.takeWhile_cons]
    · simp [runSizes, hs, List.takeWhile_cons, ih.1, ih.2]

/-- C3 (counterexample): the original claim says that when one size
fails, every other requested size is still generated.  If conversion of
the first size (32) raises, the error is printed but nothing at all is
generated: the later sizes 128 and 256 are skipped, not produced. -/
theorem C3_counterexample :
    (main_run (fun s => s == 32)).errorPrinted = true ∧
    (main_run (fun s => s == 32)).generated = [] ∧
    (main_run (fun s => s == 32)).generated ≠ [128, 256] := by decide

/-- C3 (amended): an exception while converting one requested size is
caught by the single top-level handler, which prints a diagnostic, and
`main` returns normally; the sizes processed before the failure are
generated, but the failed size and every subsequent requested size are
not (the loop aborts rather than resuming). -/
theorem C3_top_level_catch (fails : ℕ → Bool) :
    (main_run fails).generated = target_sizes.takeWhile (fun s => !fails s) ∧
    (main_run fails).errorPrinted = target_sizes.any fails :=
  runSizes_spec fails target_sizes

/-- C1: for an SVG whose only shape is a circle at (50,50) with radius
40, requesting size 128 rewrites the viewBox to the square window from
(10,10) spanning 80x80, i.e. to (90,90), and produces a 128x128 PNG. -/
theorem C1_end_to_end :
    svg_to_png ⟨some (0, 0, 100, 100), [Elem.circle 50 50 40]⟩ 128 128 =
      ⟨(10, 10, 80, 80), 128, 128, 128, 128⟩ ∧
    (10 : ℚ) + 80 = 90 := by
  constructor
  · norm_num [svg_to_png, get_svg_content_bounds, allPoints,
      Elem.pathPoints, Elem.shapePoints]
  · norm_num

/-- C4 (counterexample): the original claim says the no-points fallback
returns the document's declared viewBox.  For a shapeless document with
viewBox (10, 10, 80, 80) the function returns (0, 0, 80, 80): neither
the viewBox read as a bounding box (10, 10, 90, 90) nor the viewBox
tuple itself (10, 10, 80, 80). -/
theorem C4_counterexample :
    get_svg_content_bounds ⟨some (10, 10, 80, 80), []⟩ = (0, 0, 80, 80) ∧
    get_svg_content_bounds ⟨some (10, 10, 80, 80), []⟩ ≠ (10, 10, 90, 90) ∧
    get_svg_content_bounds ⟨some (10, 10, 80, 80), []⟩ ≠ (10, 10, 80, 80) := by
  refine ⟨?_, ?_, ?_⟩ <;> norm_num [get_svg_content_bounds, allPoints, Prod.ext_iff]

/-- C4 (amended): when no shape element yields any coordinate point, the
function returns (0, 0, w, h) for a declared viewBox (x, y, w, h) - the
viewBox's width and height with the origin zeroed - and the fixed box
(0, 0, 100, 100) when no viewBox attribute exists. -/
theorem C4_fallback (doc : SvgDoc)
    (hnp : ∀ e ∈ doc.elements, e.pathPoints = [] ∧ e.shapePoints = []) :
    (∀ vx vy vw vh, doc.viewBox = some (vx, vy, vw, vh) →
      get_svg_content_bounds doc = (0, 0, vw, vh)) ∧
    (doc.viewBox = none → get_svg_content_bounds doc = (0, 0, 100, 100)) := by
  have hap : allPoints doc = [] := by
    unfold allPoints
    rw [List.append_eq_nil]
    constructor <;>
      · rw [List.flatMap_eq_nil_iff]
        intro e he
        first
          | exact (hnp e he).1
          | exact (hnp e he).2
  constructor
  · intro vx vy vw vh hvb
    unfold get_svg_content_bounds
    rw [hap, hvb]
  · intro hvb
    unfold get_svg_content_bounds
    rw [hap, hvb]

/-- C4 (witness): the amended theorem applied to a document holding one
non-shape element and the viewBox (10, 10, 80, 80). -/
theorem C4_fallback_witness :
    get_svg_content_bounds ⟨some (10, 10, 80, 80), [Elem.other]⟩ = (0, 0, 80, 80) :=
  (C4_fallback ⟨some (10, 10, 80, 80), [Elem.other]⟩
    (fun e he => by
      rw [List.mem_singleton] at he
      subst he
      exact ⟨rfl, rfl⟩)).1 10 10 80 80 rfl

/-- C7: for every document, the crop window written into the output
viewBox is the square of side max(content width, content height) whose
origin on each axis is the bounding-box midpoint minus half the side:
the square is centered on the content. -/
theorem C7_crop_window (doc : SvgDoc) (width height : ℕ) :
    (svg_to_png doc width height).viewBox =
      (((get_svg_content_bounds doc).1 + (get_svg_content_bounds doc).2.2.1) / 2 -
         max ((get_svg_content_bounds doc).2.2.1 - (get_svg_content_bounds doc).1)
           ((get_svg_content_bounds doc).2.2.2 - (get_svg_content_bounds doc).2.1) / 2,
       ((get_svg_content_bounds doc).2.1 + (get_svg_content_bounds doc).2.2.2) / 2 -
         max ((get_svg_content_bounds doc).2.2.1 - (get_svg_content_bounds doc).1)
           ((get_svg_content_bounds doc).2.2.2 - (get_svg_content_bounds doc).2.1) / 2,
       max ((get_svg_content_bounds doc).2.2.1 - (get_svg_content_bounds doc).1)
         ((get_svg_content_bounds doc).2.2.2 - (get_svg_content_bounds doc).2.1),
       max ((get_svg_content_bounds doc).2.2.1 - (get_svg_content_bounds doc).1)
         ((get_svg_content_bounds doc).2.2.2 - (get_svg_content_bounds doc).2.1)) := by
  rcases hb : get_svg_content_bounds doc with ⟨mx, my, Mx, My⟩
  simp only [svg_to_png, hb, Prod.mk.injEq]
  exact ⟨by ring, by ring, True.intro⟩

/-- Every shape point of a document whose elements are all a fixed
circle or non-shapes is one of the circle's two bound corners. -/
theorem circle_flatMap_mem (cx cy r : ℚ) (es : List Elem)
    (honly : ∀ e ∈ es, e = Elem.circle cx cy r ∨ e = Elem.other) :
    ∀ p ∈ es.flatMap Elem.shapePoints,
      p = (cx - r, cy - r) ∨ p = (cx + r, cy + r) := by
  intro p hp
  obtain ⟨e, he, hpe⟩ := List.mem_flatMap.mp hp
  rcases honly e he with h | h <;> subst h
  · simpa [Elem.shapePoints] using hpe
  · simp [Elem.shapePoints] at hpe

/-- The shape points of a document whose elements are all a fixed circle
or non-shapes, with the circle present, start with the lower corner and
contain the upper corner. -/
theorem circle_flatMap_structure (cx cy r : ℚ) (es : List Elem)
    (honly : ∀ e ∈ es, e = Elem.circle cx cy r ∨ e = Elem.other)
    (hmem : Elem.circle cx cy r ∈ es) :
    ∃ t, es.flatMap Elem.shapePoints = (cx - r, cy - r) :: t ∧
      (cx + r, cy + r) ∈ t := by
  induction es with
  | nil => cases hmem
  | cons e es ih =>
    rcases honly e (List.mem_cons_self e es) with he | he
    · subst he
      exact ⟨(cx + r, cy + r) :: es.flatMap Elem.shapePoints,
        by simp [Elem.shapePoints], List.mem_cons_self _ _⟩
    · subst he
      have hmem2 : Elem.circle cx cy r ∈ es := by
        rcases List.mem_cons.mp hmem with h | h
        · exact absurd h (by simp)
        · exact h
      obtain ⟨t, ht, hB⟩ := ih
        (fun x hx => honly x (List.mem_cons_of_mem _ hx)) hmem2
      exact ⟨t, by simpa [Elem.shapePoints] using ht, hB⟩

/-- C5: for every document whose only shape element is a circle with
center (cx, cy) and radius r, `get_svg_content_bounds` returns exactly
(cx - r, cy - r, cx + r, cy + r). -/
theorem C5_circle_bounds (cx cy r : ℚ) (hr : 0 ≤ r)
    (vb : Option (ℚ × ℚ × ℚ × ℚ)) (es : List Elem)
    (hmem : Elem.circle cx cy r ∈ es)
    (honly : ∀ e ∈ es, e = Elem.circle cx cy r ∨ e = Elem.other) :
    get_svg_content_bounds ⟨vb, es⟩ = (cx - r, cy - r, cx + r, cy + r) := by
  have hpaths : es.flatMap Elem.pathPoints = [] :=
    List.flatMap_eq_nil_iff.mpr (fun e he => by
      rcases honly e he with h | h <;> subst h <;> rfl)
  obtain ⟨t, ht, hB⟩ := circle_flatMap_structure cx cy r es honly hmem
  have hall : allPoints ⟨vb, es⟩ = (cx - r, cy - r) :: t := by
    unfold allPoints
    dsimp only
    rw [hpaths, ht, List.nil_append]
  have hmemt : ∀ p ∈ t, p = (cx - r, cy - r) ∨ p = (cx + r, cy + r) := by
    intro p hp
    exact circle_flatMap_mem cx cy r es honly p
      (ht ▸ List.mem_cons_of_mem _ hp)
  unfold get_svg_content_bounds
  rw [hall]
  dsimp only
  simp only [Prod.mk.injEq]
  have hxlo : ∀ x ∈ t.map Prod.fst, cx - r ≤ x := by
    intro x hx
    obtain ⟨p, hp, hpx⟩ := List.mem_map.mp hx
    rcases hmemt p hp with h | h <;> subst h <;> subst hpx <;> dsimp <;> linarith
  have hylo : ∀ y ∈ t.map Prod.snd, cy - r ≤ y := by
    intro y hy
    obtain ⟨p, hp, hpy⟩ := List.mem_map.mp hy
    rcases hmemt p hp with h | h <;> subst h <;> subst hpy <;> dsimp <;> linarith
  have hxhi : ∀ x ∈ t.map Prod.fst, x ≤ cx + r := by
    intro x hx
    obtain ⟨p, hp, hpx⟩ := List.mem_map.mp hx
    rcases hmemt p hp with h | h <;> subst h <;> subst hpx <;> dsimp <;> linarith
  have hyhi : ∀ y ∈ t.map Prod.snd, y ≤ cy + r := by
    intro y hy
    obtain ⟨p, hp, hpy⟩ := List.mem_map.mp hy
    rcases hmemt p hp with h | h <;> subst h <;> subst hpy <;> dsimp <;> linarith
  refine ⟨?_, ?_, ?_, ?_⟩
  · exact le_antisymm (foldl_min_le_init _ _) (le_foldl_min (le_refl _) hxlo)
  · exact le_antisymm (foldl_min_le_init _ _) (le_foldl_min (le_refl _) hylo)
  · refine le_antisymm (foldl_max_le (by linarith) hxhi) ?_
    exact mem_le_foldl_max (List.mem_map.mpr ⟨(cx + r, cy + r), hB, rfl⟩) _
  · refine le_antisymm (foldl_max_le (by linarith) hyhi) ?_
    exact mem_le_foldl_max (List.mem_map.mpr ⟨(cx + r, cy + r), hB, rfl⟩) _

/-- C5 (witness): the theorem applied to a document holding exactly one
circle at (50, 50) with radius 40. -/
theorem C5_circle_bounds_witness :
    get_svg_content_bounds ⟨none, [Elem.circle 50 50 40]⟩ = (10, 10, 90, 90) := by
  have h := C5_circle_bounds 50 50 40 (by norm_num) none [Elem.circle 50 50 40]
    (List.mem_cons_self _ _)
    (fun e he => Or.inl (List.mem_singleton.mp he))
  rw [h]
  norm_num [Prod.mk.injEq]

/-- C6: for every document containing only axis-aligned rect elements,
the computed bounding box equals the exact union of the rect corners:
the minimum over all x, the minimum over all y, the maximum over all
x + width and the maximum over all y + height; in particular the box
contains every individual rect's own bounds. -/
theorem C6_rect_bounds (vb : Option (ℚ × ℚ × ℚ × ℚ))
    (r0 : ℚ × ℚ × ℚ × ℚ) (rs : List (ℚ × ℚ × ℚ × ℚ))
    (hnn : ∀ q ∈ r0 :: rs, 0 ≤ q.2.2.1 ∧ 0 ≤ q.2.2.2) :
    (get_svg_content_bounds
        ⟨vb, (r0 :: rs).map (fun q => Elem.rect q.1 q.2.1 q.2.2.1 q.2.2.2)⟩ =
      ((rs.map (fun q => q.1)).foldl min r0.1,
       (rs.map (fun q => q.2.1)).foldl min r0.2.1,
       (rs.map (fun q => q.1 + q.2.2.1)).foldl max (r0.1 + r0.2.2.1),
       (rs.map (fun q => q.2.1 + q.2.2.2)).foldl max (r0.2.1 + r0.2.2.2))) ∧
    ∀ q ∈ r0 :: rs,
      (rs.map (fun q => q.1)).foldl min r0.1 ≤ q.1 ∧
      (rs.map (fun q => q.2.1)).foldl min r0.2.1 ≤ q.2.1 ∧
      q.1 + q.2.2.1 ≤ (rs.map (fun q => q.1 + q.2.2.1)).foldl max (r0.1 + r0.2.2.1) ∧
      q.2.1 + q.2.2.2 ≤ (rs.map (fun q => q.2.1 + q.2.2.2)).foldl max (r0.2.1 + r0.2.2.2) := by
  have hps : ((r0 :: rs).map
        (fun q => Elem.rect q.1 q.2.1 q.2.2.1 q.2.2.2)).flatMap Elem.shapePoints
      = (r0.1, r0.2.1) :: (r0.1 + r0.2.2.1, r0.2.1 + r0.2.2.2) ::
        rs.flatMap (fun q => [(q.1, q.2.1), (q.1 + q.2.2.1, q.2.1 + q.2.2.2)]) := by
    rw [List.flatMap_map, List.flatMap_cons]
    rfl
  have hpaths : ((r0 :: rs).map
        (fun q => Elem.rect q.1 q.2.1 q.2.2.1 q.2.2.2)).flatMap Elem.pathPoints
      = [] := by
    rw [List.flatMap_map]
    exact List.flatMap_eq_nil_iff.mpr (fun q hq => rfl)
  have hall : allPoints
        ⟨vb, (r0 :: rs).map (fun q => Elem.rect q.1 q.2.1 q.2.2.1 q.2.2.2)⟩
      = (r0.1, r0.2.1) :: (r0.1 + r0.2.2.1, r0.2.1 + r0.2.2.2) ::
        rs.flatMap (fun q => [(q.1, q.2.1), (q.1 + q.2.2.1, q.2.1 + q.2.2.2)]) := by
    unfold allPoints
    dsimp only
    rw [hpaths, hps, List.nil_append]
  have hXmem : ∀ p ∈ rs.flatMap
        (fun q => [(q.1, q.2.1), (q.1 + q.2.2.1, q.2.1 + q.2.2.2)]),
      ∃ q, q ∈ rs ∧ (p = (q.1, q.2.1) ∨ p = (q.1 + q.2.2.1, q.2.1 + q.2.2.2)) := by
    intro p hp
    obtain ⟨q, hq, hpq⟩ := List.mem_flatMap.mp hp
    refine ⟨q, hq, ?_⟩
    simpa using hpq
  have hXof1 : ∀ q ∈ rs, (q.1, q.2.1) ∈ rs.flatMap
      (fun q => [(q.1, q.2.1), (q.1 + q.2.2.1, q.2.1 + q.2.2.2)]) :=
    fun q hq => List.mem_flatMap.mpr ⟨q, hq, by simp⟩
  have hXof2 : ∀ q ∈ rs, (q.1 + q.2.2.1, q.2.1 + q.2.2.2) ∈ rs.flatMap
      (fun q => [(q.1, q.2.1), (q.1 + q.2.2.1, q.2.1 + q.2.2.2)]) :=
    fun q hq => List.mem_flatMap.mpr ⟨q, hq, by simp⟩
  constructor
  · unfold get_svg_content_bounds
    rw [hall]
    dsimp only
    simp only [List.map_cons, Prod.mk.injEq]
    refine ⟨?_, ?_, ?_, ?_⟩
    · refine le_antisymm ?_ ?_
      · refine le_foldl_min (foldl_min_le_init _ _) ?_
        intro x hx
        obtain ⟨q, hq, rfl⟩ := List.mem_map.mp hx
        exact foldl_min_le_mem (List.mem_cons_of_mem _
          (List.mem_map.mpr ⟨(q.1, q.2.1), hXof1 q hq, rfl⟩)) _
      · refine le_foldl_min (foldl_min_le_init _ _) ?_
        intro x hx
        rcases List.mem_cons.mp hx with h | h
        · subst h
          have h0 := (hnn r0 (List.mem_cons_self _ _)).1
          have hi := foldl_min_le_init (rs.map (fun q => q.1)) r0.1
          linarith
        · obtain ⟨p, hp, rfl⟩ := List.mem_map.mp h
          obtain ⟨q, hq, hpq⟩ := hXmem p hp
          have hm : (rs.map (fun q => q.1)).foldl min r0.1 ≤ q.1 :=
            foldl_min_le_mem (List.mem_map.mpr ⟨q, hq, rfl⟩) _
          have hw := (hnn q (List.mem_cons_of_mem _ hq)).1
          rcases hpq with h2 | h2 <;> rw [h2] <;> dsimp <;> linarith
    · refine le_antisymm ?_ ?_
      · refine le_foldl_min (foldl_min_le_init _ _) ?_
        intro y hy
        obtain ⟨q, hq, rfl⟩ := List.mem_map.mp hy
        exact foldl_min_le_mem (List.mem_cons_of_mem _
          (List.mem_map.mpr ⟨(q.1, q.2.1), hXof1 q hq, rfl⟩)) _
      · refine le_foldl_min (foldl_min_le_init _ _) ?_
        intro y hy
        rcases List.mem_cons.mp hy with h | h
        · subst h
          have h0 := (hnn r0 (List.mem_cons_self _ _)).2
          have hi := foldl_min_le_init (rs.map (fun q => q.2.1)) r0.2.1
          linarith
        · obtain ⟨p, hp, rfl⟩ := List.mem_map.mp h
          obtain ⟨q, hq, hpq⟩ := hXmem p hp
          have hm : (rs.map (fun q => q.2.1)).foldl min r0.2.1 ≤ q.2.1 :=
            foldl_min_le_mem (List.mem_map.mpr ⟨q, hq, rfl⟩) _
          have hw := (hnn q (List.mem_cons_of_mem _ hq)).2
          rcases hpq with h2 | h2 <;> rw [h2] <;> dsimp <;> linarith
    · refine le_antisymm ?_ ?_
      · refine foldl_max_le ?_ ?_
        · have h0 := (hnn r0 (List.mem_cons_self _ _)).1
          have hi := init_le_foldl_max
            (rs.map (fun q => q.1 + q.2.2.1)) (r0.1 + r0.2.2.1)
          linarith
        · intro x hx
          rcases List.mem_cons.mp hx with h | h
          · subst h
            exact init_le_foldl_max _ _
          · obtain ⟨p, hp, rfl⟩ := List.mem_map.mp h
            obtain ⟨q, hq, hpq⟩ := hXmem p hp
            have hm : q.1 + q.2.2.1 ≤
                (rs.map (fun q => q.1 + q.2.2.1)).foldl max (r0.1 + r0.2.2.1) :=
              mem_le_foldl_max (List.mem_map.mpr ⟨q, hq, rfl⟩) _
            have hw := (hnn q (List.mem_cons_of_mem _ hq)).1
            rcases hpq with h2 | h2 <;> rw [h2] <;> dsimp <;> linarith
      · refine foldl_max_le ?_ ?_
        · exact mem_le_foldl_max (List.mem_cons_self _ _) _
        · intro x hx
          obtain ⟨q, hq, rfl⟩ := List.mem_map.mp hx
          exact mem_le_foldl_max (List.mem_cons_of_mem _
            (List.mem_map.mpr
              ⟨(q.1 + q.2.2.1, q.2.1 + q.2.2.2), hXof2 q hq, rfl⟩)) _
    · refine le_antisymm ?_ ?_
      · refine foldl_max_le ?_ ?_
        · have h0 := (hnn r0 (List.mem_cons_self _ _)).2
          have hi := init_le_foldl_max
            (rs.map (fun q => q.2.1 + q.2.2.2)) (r0.2.1 + r0.2.2.2)
          linarith
        · intro y hy
          rcases List.mem_cons.mp hy with h | h
          · subst h
            exact init_le_foldl_max _ _
          · obtain ⟨p, hp, rfl⟩ := List.mem_map.mp h
            obtain ⟨q, hq, hpq⟩ := hXmem p hp
            have hm : q.2.1 + q.2.2.2 ≤
                (rs.map (fun q => q.2.1 + q.2.2.2)).foldl max (r0.2.1 + r0.2.2.2) :=
              mem_le_foldl_max (List.mem_map.mpr ⟨q, hq, rfl⟩) _
            have hw := (hnn q (List.mem_cons_of_mem _ hq)).2
            rcases hpq with h2 | h2 <;> rw [h2] <;> dsimp <;> linarith
      · refine foldl_max_le ?_ ?_
        · exact mem_le_foldl_max (List.mem_cons_self _ _) _
        · intro y hy
          obtain ⟨q, hq, rfl⟩ := List.mem_map.mp hy
          exact mem_le_foldl_max (List.mem_cons_of_mem _
            (List.mem_map.mpr
              ⟨(q.1 + q.2.2.1, q.2.1 + q.2.2.2), hXof2 q hq, rfl⟩)) _
  · intro q hq
    rcases List.mem_cons.mp hq with h | h
    · subst h
      exact ⟨foldl_min_le_init _ _, foldl_min_le_init _ _,
        init_le_foldl_max _ _, init_le_foldl_max _ _⟩
    · exact ⟨foldl_min_le_mem (List.mem_map.mpr ⟨q, h, rfl⟩) _,
        foldl_min_le_mem (List.mem_map.mpr ⟨q, h, rfl⟩) _,
        mem_le_foldl_max (List.mem_map.mpr ⟨q, h, rfl⟩) _,
        mem_le_foldl_max (List.mem_map.mpr ⟨q, h, rfl⟩) _⟩

/-- C6 (witness): the theorem applied to a document holding the two
rects (0, 0, 10, 10) and (5, 5, 10, 10), whose union box is
(0, 0, 15, 15). -/
theorem C6_rect_bounds_witness :
    get_svg_content_bounds ⟨none, [Elem.rect 0 0 10 10, Elem.rect 5 5 10 10]⟩ =
      (0, 0, 15, 15) := by
  have h := (C6_rect_bounds none (0, 0, 10, 10) [(5, 5, 10, 10)]
    (by
      intro q hq
      rcases List.mem_cons.mp hq with h | h
      · subst h
        constructor <;> norm_num
      · rw [List.mem_singleton] at h
        subst h
        constructor <;> norm_num)).1
  exact h.trans (by norm_num [Prod.mk.injEq])
